import Mathlib

/-!
Shallow embedding of the in-memory broadcast/replay core of the long-poll
chat demo (`MessageBuffer` in `chatdemo.py`).

The Python state is a dict `room : {name ↦ {'cache': list, 'waiters': set}}`.
We model the dict as an association list (first binding wins, insertion at
the end), the waiter set as a duplicate-free list of handle numbers, and a
Tornado `Future` as a handle (`Nat`) together with a global resolution log:
every `set_result(v)` call on handle `h` appends `(h, v)` to the log.
`cancel_wait` uses Python `set.remove` / dict indexing, which raise
`KeyError` when the element is absent, so it returns `Except`.
-/

/-- A chat message as built in `MessageNewHandler.post`: `id`, `timestamp`,
`body`, all strings. -/
structure Message where
  id : String
  timestamp : String
  body : String
deriving DecidableEq, Repr

/-- Per-room state: `self.room[name]` is `{'cache': [...], 'waiters': set()}`. -/
structure RoomState where
  cache : List Message
  waiters : List Nat
deriving DecidableEq, Repr

/-- Whole `MessageBuffer` state plus the bookkeeping for futures: the room
dict, the log of all `set_result` calls (handle, value) in program order,
and the next fresh future handle. -/
structure BufferState where
  rooms : List (String × RoomState)
  resolvedLog : List (Nat × List Message)
  nextHandle : Nat
deriving DecidableEq, Repr

/-- `self.cache_size = 200`. -/
def cache_size : Nat := 200

/-- Dict lookup `self.room[room]` (first binding wins). -/
def lookupRoom : List (String × RoomState) → String → Option RoomState
  | [], _ => none
  | (name, rs) :: rest, r => if name = r then some rs else lookupRoom rest r

/-- Dict assignment `self.room[room] = rs`: replace the binding if the key is
present, append a new binding otherwise. -/
def setRoom : List (String × RoomState) → String → RoomState → List (String × RoomState)
  | [], r, rs => [(r, rs)]
  | (name, old) :: rest, r, rs =>
      if name = r then (r, rs) :: rest else (name, old) :: setRoom rest r rs

/-- The room's state, defaulting to an empty room when the key is absent
(used only after `create_new_room` has run, where the default agrees). -/
def getRoom (st : BufferState) (room : String) : RoomState :=
  (lookupRoom st.rooms room).getD ⟨[], []⟩

/-- `set.add`: a no-op when the element is already present, else append. -/
def addWaiter (w : List Nat) (h : Nat) : List Nat :=
  if h ∈ w then w else w ++ [h]

/-- The last `n` elements of a list, Python `xs[-n:]` for `n > 0`. -/
def takeLast (n : Nat) (xs : List α) : List α :=
  xs.drop (xs.length - n)

/-- `MessageBuffer.create_new_room`: insert an empty room if the name is not
yet a key of the dict. -/
def create_new_room (st : BufferState) (room : String) : BufferState :=
  match lookupRoom st.rooms room with
  | some _ => st
  | none => { st with rooms := setRoom st.rooms room ⟨[], []⟩ }

/-- Python truthiness of the `cursor` argument: `None` and `""` are falsy. -/
def cursorTruthy : Option String → Bool
  | none => false
  | some s => if s = "" then false else true

/-- The scan loop of `wait_for_messages`: walk the given list (the reversed
cache), counting entries until one with `id == cursor` is found. -/
def newCount (cursor : String) : List Message → Nat
  | [] => 0
  | msg :: rest => if msg.id = cursor then 0 else 1 + newCount cursor rest

/-- Register the future in the room's waiter set (the fall-through tail of
`wait_for_messages`). -/
def registerWaiter (st : BufferState) (room : String) (rs : RoomState) (h : Nat) :
    BufferState × Nat :=
  ({ st with rooms := setRoom st.rooms room { rs with waiters := addWaiter rs.waiters h } }, h)

/-- `MessageBuffer.wait_for_messages`: ensure the room, make a fresh future;
if the cursor is truthy, scan the reversed cache for it; when newer messages
exist resolve the future immediately with `cache[-new_count:]`, otherwise
add the future to the waiter set. Returns the new state and the handle. -/
def wait_for_messages (st : BufferState) (room : String) (cursor : Option String) :
    BufferState × Nat :=
  let st0 := create_new_room st room
  let rs := getRoom st0 room
  let h := st0.nextHandle
  let st1 := { st0 with nextHandle := h + 1 }
  if cursorTruthy cursor then
    let n := newCount (cursor.getD "") rs.cache.reverse
    if n ≠ 0 then
      ({ st1 with resolvedLog := st1.resolvedLog ++ [(h, takeLast n rs.cache)] }, h)
    else registerWaiter st1 room rs h
  else registerWaiter st1 room rs h

/-- `MessageBuffer.cancel_wait`: `self.room[room]['waiters'].remove(future)`
raises `KeyError` when the room is not a key or the future is not in the set;
otherwise the future is removed and resolved with `[]`. -/
def cancel_wait (st : BufferState) (room : String) (h : Nat) : Except String BufferState :=
  match lookupRoom st.rooms room with
  | none => Except.error "KeyError: room"
  | some rs =>
      if h ∈ rs.waiters then
        Except.ok { st with
          rooms := setRoom st.rooms room { rs with waiters := rs.waiters.erase h },
          resolvedLog := st.resolvedLog ++ [(h, [])] }
      else Except.error "KeyError: future"

/-- `MessageBuffer.new_messages`: ensure the room, resolve every waiting
future with the batch, clear the waiter set, extend the cache with the batch
and trim it to the last `cache_size` entries when it exceeds the bound. -/
def new_messages (st : BufferState) (room : String) (msgs : List Message) : BufferState :=
  let st0 := create_new_room st room
  let rs := getRoom st0 room
  let newCache :=
    if (rs.cache ++ msgs).length > cache_size then takeLast cache_size (rs.cache ++ msgs)
    else rs.cache ++ msgs
  { st0 with
    resolvedLog := st0.resolvedLog ++ rs.waiters.map (fun h => (h, msgs)),
    rooms := setRoom st0.rooms room { cache := newCache, waiters := [] } }

/-- The state of the freshly constructed `MessageBuffer()`. -/
def initialState : BufferState := ⟨[], [], 0⟩

/-- The core's external operations (the four methods of `MessageBuffer`). -/
inductive Op where
  | ensure (room : String)
  | publish (room : String) (msgs : List Message)
  | subscribe (room : String) (cursor : Option String)
  | cancel (room : String) (h : Nat)
deriving DecidableEq, Repr

/-- Run one operation. A `cancel` that raises `KeyError` leaves the state
unchanged (the exception fires before any mutation). -/
def runOp (st : BufferState) : Op → BufferState
  | .ensure r => create_new_room st r
  | .publish r msgs => new_messages st r msgs
  | .subscribe r c => (wait_for_messages st r c).1
  | .cancel r h =>
      match cancel_wait st r h with
      | .ok st2 => st2
      | .error _ => st

/-- Run a sequence of operations from a state. -/
def runOps (st : BufferState) (ops : List Op) : BufferState :=
  ops.foldl runOp st

/-- Handles that have ever been resolved (`set_result` called), in order. -/
def logHandles (st : BufferState) : List Nat :=
  st.resolvedLog.map Prod.fst

/-- All waiter handles across every room, in room-dict order. -/
def allWaiters (rooms : List (String × RoomState)) : List Nat :=
  (rooms.map (fun p => p.2.waiters)).flatten

/-- Every handle the state knows about: resolved ones plus pending waiters. -/
def usedHandles (st : BufferState) : List Nat :=
  logHandles st ++ allWaiters st.rooms

/-- Well-formedness of a buffer state: no handle occurs twice among
"resolved" and "pending" occurrences, and every known handle is below the
fresh-handle counter. -/
def WF (st : BufferState) : Prop :=
  (usedHandles st).Nodup ∧ ∀ h ∈ usedHandles st, h < st.nextHandle

/-- The primitive effects a `new_messages` call performs on shared state. -/
inductive Event where
  | resolveWaiter (h : Nat) (batch : List Message)
  | clearWaiters
  | appendHistory (batch : List Message)
  | trimHistory
deriving DecidableEq, Repr

def Event.isResolve : Event → Bool
  | .resolveWaiter _ _ => true
  | _ => false

def Event.isAppend : Event → Bool
  | .appendHistory _ => true
  | _ => false

/-- The effects of `new_messages`, in the statement order of the source:
resolve each waiting future with the batch (`future.set_result(messages)`),
clear the waiter set, extend the cache with the batch, and trim the cache
when it exceeds the bound. -/
def newMessagesTrace (st : BufferState) (room : String) (msgs : List Message) : List Event :=
  let rs := getRoom (create_new_room st room) room
  rs.waiters.map (fun h => Event.resolveWaiter h msgs)
    ++ (Event.clearWaiters :: Event.appendHistory msgs ::
        (if (rs.cache ++ msgs).length > cache_size then [Event.trimHistory] else []))

example : newCount "m1" [⟨"m1", "", ""⟩, ⟨"m2", "", ""⟩, ⟨"m3", "", ""⟩] = 0 := by decide
example : newCount "m1" [⟨"m3", "", ""⟩, ⟨"m2", "", ""⟩] = 2 := by decide

/-! ### Basic lemmas about the room dict -/

theorem lookupRoom_setRoom_self (rooms : List (String × RoomState)) (r : String)
    (rs : RoomState) : lookupRoom (setRoom rooms r rs) r = some rs := by
  induction rooms with
  | nil => simp [setRoom, lookupRoom]
  | cons p rest ih =>
      obtain ⟨name, old⟩ := p
      by_cases hn : name = r
      · simp [setRoom, hn, lookupRoom]
      · simp [setRoom, hn, lookupRoom, ih]

theorem lookupRoom_setRoom_ne (rooms : List (String × RoomState)) (r q : String)
    (rs : RoomState) (hne : q ≠ r) :
    lookupRoom (setRoom rooms r rs) q = lookupRoom rooms q := by
  induction rooms with
  | nil => simp [setRoom, lookupRoom, Ne.symm hne]
  | cons p rest ih =>
      obtain ⟨name, old⟩ := p
      by_cases hn : name = r
      · subst hn
        simp [setRoom, lookupRoom, Ne.symm hne]
      · simp only [setRoom, if_neg hn, lookupRoom]
        by_cases hq : name = q <;> simp [hq, ih]

theorem setRoom_of_lookup_none (rooms : List (String × RoomState)) (r : String)
    (rs : RoomState) (hl : lookupRoom rooms r = none) :
    setRoom rooms r rs = rooms ++ [(r, rs)] := by
  induction rooms with
  | nil => simp [setRoom]
  | cons p rest ih =>
      obtain ⟨name, old⟩ := p
      by_cases hn : name = r
      · simp [lookupRoom, hn] at hl
      · simp only [lookupRoom, if_neg hn] at hl
        simp [setRoom, hn, ih hl]

/-- `create_new_room` never changes what any room lookup (with empty-room
default) returns. -/
theorem getRoom_create_new_room (st : BufferState) (r q : String) :
    getRoom (create_new_room st r) q = getRoom st q := by
  unfold create_new_room
  cases hl : lookupRoom st.rooms r with
  | some rs => rfl
  | none =>
      unfold getRoom
      by_cases hq : q = r
      · subst hq
        simp [lookupRoom_setRoom_self, hl]
      · simp [lookupRoom_setRoom_ne _ _ _ _ hq]

theorem create_new_room_resolvedLog (st : BufferState) (r : String) :
    (create_new_room st r).resolvedLog = st.resolvedLog := by
  unfold create_new_room
  cases hl : lookupRoom st.rooms r <;> rfl

theorem create_new_room_nextHandle (st : BufferState) (r : String) :
    (create_new_room st r).nextHandle = st.nextHandle := by
  unfold create_new_room
  cases hl : lookupRoom st.rooms r <;> rfl

/-- After `create_new_room`, the room is a key of the dict and its value is
what `getRoom` reports. -/
theorem lookupRoom_create_new_room_self (st : BufferState) (r : String) :
    lookupRoom (create_new_room st r).rooms r = some (getRoom st r) := by
  unfold create_new_room getRoom
  cases hl : lookupRoom st.rooms r with
  | some rs => simp [hl]
  | none => simp [lookupRoom_setRoom_self, hl]

theorem mem_addWaiter_self (w : List Nat) (h : Nat) : h ∈ addWaiter w h := by
  unfold addWaiter
  by_cases hm : h ∈ w <;> simp [hm]

/-! ### Claim theorems: room creation, empty cursor, publish fan-out -/

/-- C8: `create_new_room` is idempotent and never fails: when the room is
absent it creates a room with empty history and empty waiter set; when the
room already exists the call leaves the whole state (hence the existing
history and waiter set) unchanged. -/
theorem C8_create_new_room_idempotent (st : BufferState) (room : String) :
    create_new_room (create_new_room st room) room = create_new_room st room
    ∧ (lookupRoom st.rooms room = none →
        lookupRoom (create_new_room st room).rooms room = some ⟨[], []⟩)
    ∧ (∀ rs, lookupRoom st.rooms room = some rs → create_new_room st room = st) := by
  refine ⟨?_, ?_, ?_⟩
  · conv_lhs => rw [create_new_room]
    rw [lookupRoom_create_new_room_self]
  · intro hnone
    simp [create_new_room, hnone, lookupRoom_setRoom_self]
  · intro rs hsome
    simp [create_new_room, hsome]

/-- Witness for C8 at the concrete room `"lobby"`: created (empty) when
absent from the fresh buffer, left untouched when already present. -/
theorem C8_create_new_room_idempotent_witness :
    lookupRoom (create_new_room initialState "lobby").rooms "lobby" = some ⟨[], []⟩
    ∧ create_new_room (create_new_room initialState "lobby") "lobby"
        = create_new_room initialState "lobby" :=
  ⟨(C8_create_new_room_idempotent initialState "lobby").2.1 rfl,
   (C8_create_new_room_idempotent (create_new_room initialState "lobby") "lobby").2.2
     ⟨[], []⟩ ((C8_create_new_room_idempotent initialState "lobby").2.1 rfl)⟩

/-- C10: an empty-string cursor is treated exactly like an absent cursor:
`wait_for_messages` with `cursor=""` behaves identically to `cursor=None`,
registering the fresh handle as a waiter (even when the history is
non-empty). -/
theorem C10_empty_cursor_like_none (st : BufferState) (room : String) :
    wait_for_messages st room (some "") = wait_for_messages st room none
    ∧ st.nextHandle ∈ (getRoom (wait_for_messages st room (some "")).1 room).waiters := by
  constructor
  · simp [wait_for_messages, cursorTruthy]
  · have hct : cursorTruthy (some "") = false := rfl
    simp only [wait_for_messages, hct, Bool.false_eq_true, if_false, registerWaiter]
    unfold getRoom
    simp only [lookupRoom_setRoom_self, Option.getD_some]
    rw [create_new_room_nextHandle]
    exact mem_addWaiter_self _ _

/-! ### takeLast lemmas and the cache bound -/

theorem takeLast_of_le {xs : List α} {n : Nat} (h : xs.length ≤ n) :
    takeLast n xs = xs := by
  unfold takeLast
  have h0 : xs.length - n = 0 := by omega
  rw [h0, List.drop_zero]

theorem length_takeLast (n : Nat) (xs : List α) :
    (takeLast n xs).length ≤ n := by
  unfold takeLast
  simp only [List.length_drop]
  omega

/-- Trimming to the last `n` twice along an append is the same as trimming
once at the end. -/
theorem takeLast_append_left (n : Nat) (xs ys : List α) :
    takeLast n (takeLast n xs ++ ys) = takeLast n (xs ++ ys) := by
  unfold takeLast
  rw [List.drop_append_eq_append_drop, List.drop_append_eq_append_drop, List.drop_drop]
  simp only [List.length_append, List.length_drop]
  have h1 : xs.length - n + (xs.length - (xs.length - n) + ys.length - n)
      = xs.length + ys.length - n := by omega
  have h2 : xs.length - (xs.length - n) + ys.length - n - (xs.length - (xs.length - n))
      = xs.length + ys.length - n - xs.length := by omega
  rw [h1, h2]

theorem takeLast_idem (n : Nat) (xs : List α) :
    takeLast n (takeLast n xs) = takeLast n xs := by
  have h := takeLast_append_left n xs []
  simpa using h

theorem getRoom_of_lookup {st : BufferState} {r : String} {rs : RoomState}
    (h : lookupRoom st.rooms r = some rs) : getRoom st r = rs := by
  simp [getRoom, h]

/-- The cache after one `new_messages` call is the last `cache_size`
entries of the old cache extended by the batch. -/
theorem cache_new_messages (st : BufferState) (room : String) (msgs : List Message) :
    (getRoom (new_messages st room msgs) room).cache
      = takeLast cache_size ((getRoom st room).cache ++ msgs) := by
  simp only [new_messages]
  rw [getRoom_of_lookup (lookupRoom_setRoom_self _ _ _)]
  rw [getRoom_create_new_room]
  by_cases hlen : ((getRoom st room).cache ++ msgs).length > cache_size
  · simp only [if_pos hlen]
  · simp only [if_neg hlen]
    rw [takeLast_of_le (Nat.not_lt.mp hlen)]

theorem cache_foldl_publish (room : String) :
    ∀ (batches : List (List Message)) (st : BufferState),
      (getRoom st room).cache = takeLast cache_size (getRoom st room).cache →
      (getRoom (batches.foldl (fun s b => new_messages s room b) st) room).cache
        = takeLast cache_size ((getRoom st room).cache ++ batches.flatten) := by
  intro batches
  induction batches with
  | nil => intro st h; simpa using h
  | cons b bs ih =>
      intro st h
      have hstep := cache_new_messages st room b
      have hinv : (getRoom (new_messages st room b) room).cache
          = takeLast cache_size (getRoom (new_messages st room b) room).cache := by
        rw [hstep, takeLast_idem]
      calc (getRoom ((b :: bs).foldl (fun s b => new_messages s room b) st) room).cache
          = (getRoom (bs.foldl (fun s b => new_messages s room b)
              (new_messages st room b)) room).cache := by rfl
        _ = takeLast cache_size ((getRoom (new_messages st room b) room).cache
              ++ bs.flatten) := ih _ hinv
        _ = takeLast cache_size (takeLast cache_size ((getRoom st room).cache ++ b)
              ++ bs.flatten) := by rw [hstep]
        _ = takeLast cache_size (((getRoom st room).cache ++ b) ++ bs.flatten) :=
              takeLast_append_left _ _ _
        _ = takeLast cache_size ((getRoom st room).cache ++ (b :: bs).flatten) := by
              rw [List.append_assoc, List.flatten_cons]

/-- C1: for every room and every sequence of publish calls starting from a
fresh buffer, the room's history after each call is exactly the last
`cache_size` (200) of all messages published so far, in arrival order
(FIFO eviction of the oldest), and hence has length at most `cache_size`. -/
theorem C1_cache_bound (room : String) (batches : List (List Message)) :
    (getRoom (batches.foldl (fun s b => new_messages s room b) initialState) room).cache
      = takeLast cache_size batches.flatten
    ∧ (getRoom (batches.foldl (fun s b => new_messages s room b) initialState) room).cache.length
      ≤ cache_size := by
  have h0 : (getRoom initialState room).cache = [] := rfl
  have h := cache_foldl_publish room batches initialState (by rw [h0]; rfl)
  rw [h0] at h
  simp only [List.nil_append] at h
  exact ⟨h, by rw [h]; exact length_takeLast _ _⟩

/-! ### The cursor scan -/

/-- `newCount` counts up to the first match: if position `i` holds the first
entry whose id is the cursor, the scan stops there having counted `i`. -/
theorem newCount_eq_of_first_match (c : String) (l : List Message) :
    ∀ (i : Nat) (hi : i < l.length), l[i].id = c →
      (∀ j (hj : j < l.length), j < i → l[j].id ≠ c) → newCount c l = i := by
  induction l with
  | nil => intro i hi _ _; exact absurd hi (by simp)
  | cons x xs ih =>
      intro i hi hmatch hbefore
      cases i with
      | zero =>
          simp only [List.getElem_cons_zero] at hmatch
          simp [newCount, hmatch]
      | succ i' =>
          have hx : x.id ≠ c := by
            have h0 := hbefore 0 (by simp) (by omega)
            simpa using h0
          have hi' : i' < xs.length := by
            simpa [Nat.succ_lt_succ_iff] using hi
          have hm' : xs[i'].id = c := by simpa using hmatch
          have hb' : ∀ j (hj : j < xs.length), j < i' → xs[j].id ≠ c := by
            intro j hj hlt
            have hjj := hbefore (j + 1) (by simpa [Nat.succ_lt_succ_iff] using hj) (by omega)
            simpa using hjj
          simp only [newCount, if_neg hx, ih i' hi' hm' hb']
          omega

/-- When no entry matches the cursor, the scan counts the whole list. -/
theorem newCount_of_all_ne (c : String) (l : List Message)
    (h : ∀ m ∈ l, m.id ≠ c) : newCount c l = l.length := by
  induction l with
  | nil => rfl
  | cons x xs ih =>
      have hx : x.id ≠ c := h x (by simp)
      simp only [newCount, if_neg hx, ih (fun m hm => h m (List.mem_cons_of_mem _ hm)),
        List.length_cons]
      omega

/-- If position `k` holds the last entry of `cache` whose id is the cursor,
the backwards scan of `wait_for_messages` counts the entries after `k`. -/
theorem newCount_reverse_of_last_match (c : String) (cache : List Message) (k : Nat)
    (hk : k < cache.length) (hid : cache[k].id = c)
    (hlast : ∀ j (hj : j < cache.length), k < j → cache[j].id ≠ c) :
    newCount c cache.reverse = cache.length - 1 - k := by
  have hi : cache.length - 1 - k < cache.reverse.length := by
    simp only [List.length_reverse]; omega
  apply newCount_eq_of_first_match c cache.reverse (cache.length - 1 - k) hi
  · rw [List.getElem_reverse]
    have hkk : cache.length - 1 - (cache.length - 1 - k) = k := by omega
    simp only [hkk]
    exact hid
  · intro j hj hlt
    rw [List.getElem_reverse]
    apply hlast
    simp only [List.length_reverse] at hj
    omega

/-- The immediate-resolution path of `wait_for_messages`: room present,
truthy cursor, non-zero count. -/
theorem wait_fast_path (st : BufferState) (room : String) (c : String)
    (hpresent : create_new_room st room = st)
    (hct : cursorTruthy (some c) = true)
    (n : Nat) (hn : newCount c (getRoom st room).cache.reverse = n) (hn0 : n ≠ 0) :
    wait_for_messages st room (some c)
      = ({ st with
            resolvedLog := st.resolvedLog
              ++ [(st.nextHandle, takeLast n (getRoom st room).cache)],
            nextHandle := st.nextHandle + 1 }, st.nextHandle) := by
  simp only [wait_for_messages, hpresent, hct, Option.getD_some, hn, if_pos rfl]
  simp [hn0]

/-- A room whose cache is non-empty is a key of the dict, and
`create_new_room` on it is the identity. -/
theorem create_new_room_id_of_cache_ne (st : BufferState) (room : String)
    (hne : (getRoom st room).cache ≠ []) : create_new_room st room = st := by
  cases hl : lookupRoom st.rooms room with
  | none =>
      exfalso
      apply hne
      simp [getRoom, hl]
  | some rs => simp [create_new_room, hl]

/-- C3: if the cursor identifies the message at position `k` of the room's
history (its latest occurrence) and at least one message follows position
`k`, `wait_for_messages` immediately resolves the fresh handle with exactly
the messages after position `k`, in order, without registering a waiter and
without modifying any room's history or waiter set. -/
theorem C3_cursor_replay (st : BufferState) (room : String) (c : String) (k : Nat)
    (hk : k < (getRoom st room).cache.length)
    (hid : ((getRoom st room).cache[k]).id = c)
    (hlast : ∀ j (hj : j < (getRoom st room).cache.length), k < j →
        ((getRoom st room).cache[j]).id ≠ c)
    (hafter : k + 1 < (getRoom st room).cache.length)
    (hc : c ≠ "") :
    wait_for_messages st room (some c)
      = ({ st with
            resolvedLog := st.resolvedLog
              ++ [(st.nextHandle, (getRoom st room).cache.drop (k + 1))],
            nextHandle := st.nextHandle + 1 }, st.nextHandle) := by
  have hne : (getRoom st room).cache ≠ [] := by
    intro hnil
    rw [hnil] at hk
    exact absurd hk (by simp)
  have hct : cursorTruthy (some c) = true := by simp [cursorTruthy, hc]
  have hn := newCount_reverse_of_last_match c (getRoom st room).cache k hk hid hlast
  have hres := wait_fast_path st room c (create_new_room_id_of_cache_ne st room hne) hct
    ((getRoom st room).cache.length - 1 - k) hn (by omega)
  rw [hres]
  have hdrop : takeLast ((getRoom st room).cache.length - 1 - k) (getRoom st room).cache
      = (getRoom st room).cache.drop (k + 1) := by
    unfold takeLast
    congr 1
    omega
  rw [hdrop]

/-- C5: when the room's history is non-empty and the (truthy) cursor id
occurs nowhere in it, `wait_for_messages` immediately resolves the fresh
handle with the entire current history, without registering a waiter. -/
theorem C5_expired_cursor_full_replay (st : BufferState) (room : String) (c : String)
    (hne : (getRoom st room).cache ≠ [])
    (hnotin : ∀ m ∈ (getRoom st room).cache, m.id ≠ c)
    (hc : c ≠ "") :
    wait_for_messages st room (some c)
      = ({ st with
            resolvedLog := st.resolvedLog ++ [(st.nextHandle, (getRoom st room).cache)],
            nextHandle := st.nextHandle + 1 }, st.nextHandle) := by
  have hct : cursorTruthy (some c) = true := by simp [cursorTruthy, hc]
  have hn : newCount c (getRoom st room).cache.reverse = (getRoom st room).cache.length := by
    rw [newCount_of_all_ne c _ (fun m hm => hnotin m (List.mem_reverse.mp hm))]
    exact List.length_reverse _
  have hn0 : (getRoom st room).cache.length ≠ 0 := by
    simpa [List.length_eq_zero] using hne
  have hres := wait_fast_path st room c (create_new_room_id_of_cache_ne st room hne) hct
    (getRoom st room).cache.length hn hn0
  rw [hres, takeLast_of_le (Nat.le_refl _)]

/-- A message whose only interesting field is its id. -/
def mkMsg (i : String) : Message := ⟨i, "", ""⟩

/-- A buffer whose `"lobby"` room holds messages `m1, m2, m3`. -/
def stC3 : BufferState :=
  ⟨[("lobby", ⟨[mkMsg "m1", mkMsg "m2", mkMsg "m3"], []⟩)], [], 7⟩

/-- Witness for C3: with history `[m1, m2, m3]` and cursor `"m1"` (position
0), the subscribe resolves immediately with `[m2, m3]`. -/
theorem C3_cursor_replay_witness :
    0 + 1 < (getRoom stC3 "lobby").cache.length
    ∧ ("m1" : String) ≠ ""
    ∧ wait_for_messages stC3 "lobby" (some "m1")
        = ({ stC3 with
              resolvedLog := stC3.resolvedLog
                ++ [(stC3.nextHandle, (getRoom stC3 "lobby").cache.drop (0 + 1))],
              nextHandle := stC3.nextHandle + 1 }, stC3.nextHandle) :=
  ⟨by decide, by decide,
   C3_cursor_replay stC3 "lobby" "m1" 0 (by decide) (by decide) (by decide)
     (by decide) (by decide)⟩

/-- A buffer whose `"den"` room holds messages `a1, a2`. -/
def stC5 : BufferState :=
  ⟨[("den", ⟨[mkMsg "a1", mkMsg "a2"], []⟩)], [], 3⟩

/-- Witness for C5: cursor `"zz"` occurs nowhere in the non-empty history
`[a1, a2]`, so the subscribe resolves immediately with the whole history. -/
theorem C5_expired_cursor_full_replay_witness :
    (getRoom stC5 "den").cache ≠ []
    ∧ (∀ m ∈ (getRoom stC5 "den").cache, m.id ≠ "zz")
    ∧ wait_for_messages stC5 "den" (some "zz")
        = ({ stC5 with
              resolvedLog := stC5.resolvedLog ++ [(stC5.nextHandle, (getRoom stC5 "den").cache)],
              nextHandle := stC5.nextHandle + 1 }, stC5.nextHandle) :=
  ⟨by decide, by decide,
   C5_expired_cursor_full_replay stC5 "den" "zz" (by decide) (by decide) (by decide)⟩

/-- C2: `new_messages` resolves every waiter currently registered for the
room with exactly the batch just published (each waiter receives the same
slice, recorded in the resolution log), and afterwards the room's waiter
set is empty. -/
theorem C2_publish_resolves_all_waiters (st : BufferState) (room : String)
    (msgs : List Message) :
    (new_messages st room msgs).resolvedLog
      = st.resolvedLog ++ (getRoom st room).waiters.map (fun h => (h, msgs))
    ∧ (getRoom (new_messages st room msgs) room).waiters = [] := by
  constructor
  · simp only [new_messages]
    rw [create_new_room_resolvedLog, getRoom_create_new_room]
  · simp only [new_messages]
    unfold getRoom
    simp [lookupRoom_setRoom_self]

/-! ### Cancellation (C4) -/

/-- A buffer with a `"hall"` room that has one pending waiter, handle 4. -/
def stC4 : BufferState := ⟨[("hall", ⟨[], [4]⟩)], [], 5⟩

/-- Counterexample for C4: cancelling a handle that is not in the waiter
set is not a no-op — `set.remove` raises `KeyError`, so `cancel_wait` fails
instead of succeeding. -/
theorem C4_cancel_counterexample :
    cancel_wait stC4 "hall" 9 = Except.error "KeyError: future"
    ∧ ¬ ∃ st2, cancel_wait stC4 "hall" 9 = Except.ok st2 := by
  constructor
  · rfl
  · rintro ⟨st2, h2⟩
    rw [show cancel_wait stC4 "hall" 9 = Except.error "KeyError: future" from rfl] at h2
    exact Except.noConfusion h2

/-- C4 amended: `cancel_wait` removes the handle from the room's waiter set
and resolves it with the empty batch when the handle is currently
registered; when the handle is absent (e.g. already resolved and removed)
it raises `KeyError` instead of being a no-op. -/
theorem C4_cancel_amended (st : BufferState) (room : String) (h : Nat) :
    (h ∈ (getRoom st room).waiters →
        cancel_wait st room h = Except.ok { st with
          rooms := setRoom st.rooms room
            { getRoom st room with waiters := (getRoom st room).waiters.erase h },
          resolvedLog := st.resolvedLog ++ [(h, [])] })
    ∧ (h ∉ (getRoom st room).waiters → ∃ e, cancel_wait st room h = Except.error e) := by
  cases hl : lookupRoom st.rooms room with
  | none =>
      constructor
      · intro hmem
        exfalso
        rw [show getRoom st room = ⟨[], []⟩ from by simp [getRoom, hl]] at hmem
        exact absurd hmem (by simp)
      · intro _
        exact ⟨"KeyError: room", by simp [cancel_wait, hl]⟩
  | some rs =>
      have hg : getRoom st room = rs := getRoom_of_lookup hl
      constructor
      · intro hmem
        rw [hg] at hmem ⊢
        simp [cancel_wait, hl, hmem]
      · intro hmem
        rw [hg] at hmem
        exact ⟨"KeyError: future", by simp [cancel_wait, hl, hmem]⟩

/-- Witness for C4 (amended): cancelling registered handle 4 succeeds and
resolves it with `[]`; cancelling absent handle 9 raises. -/
theorem C4_cancel_amended_witness :
    4 ∈ (getRoom stC4 "hall").waiters
    ∧ cancel_wait stC4 "hall" 4 = Except.ok { stC4 with
        rooms := setRoom stC4.rooms "hall"
          { getRoom stC4 "hall" with waiters := (getRoom stC4 "hall").waiters.erase 4 },
        resolvedLog := stC4.resolvedLog ++ [(4, [])] }
    ∧ ∃ e, cancel_wait stC4 "hall" 9 = Except.error e :=
  ⟨by decide, (C4_cancel_amended stC4 "hall" 4).1 (by decide),
   (C4_cancel_amended stC4 "hall" 9).2 (by decide)⟩

/-! ### Ordering inside one publish (C9) -/

/-- In a concatenation whose front part contains no append event and whose
tail contains no resolve event, every resolve index precedes every append
index. -/
theorem sep_append (L1 tl : List Event)
    (hL1 : ∀ e ∈ L1, e.isAppend = false)
    (htl : ∀ e ∈ tl, e.isResolve = false) :
    ∀ (i : Nat) (hi : i < (L1 ++ tl).length) (j : Nat) (hj : j < (L1 ++ tl).length),
      ((L1 ++ tl)[i]).isResolve = true → ((L1 ++ tl)[j]).isAppend = true → i < j := by
  intro i hi j hj hres happ
  have hlen : i < L1.length + tl.length := by
    simpa [List.length_append] using hi
  have hij1 : i < L1.length := by
    by_contra hge
    push_neg at hge
    have hb : i - L1.length < tl.length := by omega
    rw [List.getElem_append_right hge] at hres
    have hfalse := htl _ (List.getElem_mem hb)
    rw [hfalse] at hres
    exact Bool.noConfusion hres
  have hij2 : L1.length ≤ j := by
    by_contra hlt
    push_neg at hlt
    rw [List.getElem_append_left hlt] at happ
    have hfalse := hL1 _ (List.getElem_mem hlt)
    rw [hfalse] at happ
    exact Bool.noConfusion happ
  omega

/-- A buffer with a `"bar"` room that has one pending waiter, handle 2. -/
def stC9 : BufferState := ⟨[("bar", ⟨[], [2]⟩)], [], 3⟩

/-- Counterexample for C9: with one registered waiter, the effect trace of
`new_messages` is `[resolve, clear, append]`, so the append to history does
NOT happen before the waiter is resolved. -/
theorem C9_append_before_resolve_counterexample :
    ¬ (∀ (i : Nat) (hi : i < (newMessagesTrace stC9 "bar" [mkMsg "x"]).length)
        (j : Nat) (hj : j < (newMessagesTrace stC9 "bar" [mkMsg "x"]).length),
        ((newMessagesTrace stC9 "bar" [mkMsg "x"])[i]).isAppend = true →
        ((newMessagesTrace stC9 "bar" [mkMsg "x"])[j]).isResolve = true → i < j) := by
  decide

/-- C9 amended: within a single `new_messages` call, every waiter
resolution happens before the append of the batch to the room's history
(the source resolves waiters first, then extends the cache). -/
theorem C9_resolve_before_append (st : BufferState) (room : String) (msgs : List Message) :
    ∀ (i : Nat) (hi : i < (newMessagesTrace st room msgs).length)
      (j : Nat) (hj : j < (newMessagesTrace st room msgs).length),
      ((newMessagesTrace st room msgs)[i]).isResolve = true →
      ((newMessagesTrace st room msgs)[j]).isAppend = true → i < j := by
  have htr : newMessagesTrace st room msgs
      = ((getRoom (create_new_room st room) room).waiters.map
          (fun h => Event.resolveWaiter h msgs))
        ++ (Event.clearWaiters :: Event.appendHistory msgs ::
            (if ((getRoom (create_new_room st room) room).cache ++ msgs).length > cache_size
             then [Event.trimHistory] else [])) := rfl
  rw [htr]
  apply sep_append
  · intro e he
    simp only [List.mem_map] at he
    obtain ⟨a, _, rfl⟩ := he
    rfl
  · intro e he
    simp only [List.mem_cons] at he
    rcases he with rfl | rfl | he
    · rfl
    · rfl
    · by_cases hc : ((getRoom (create_new_room st room) room).cache ++ msgs).length > cache_size
      · rw [if_pos hc] at he
        simp only [List.mem_singleton] at he
        rw [he]
        rfl
      · rw [if_neg hc] at he
        exact absurd he (by simp)

/-- Witness for C9 (amended): in the concrete trace `[resolve, clear,
append]`, the resolve at index 0 precedes the append at index 2. -/
theorem C9_resolve_before_append_witness :
    ((newMessagesTrace stC9 "bar" [mkMsg "x"]).get ⟨0, by decide⟩).isResolve = true
    ∧ ((newMessagesTrace stC9 "bar" [mkMsg "x"]).get ⟨2, by decide⟩).isAppend = true
    ∧ (0 : Nat) < 2 :=
  ⟨by decide, by decide,
   C9_resolve_before_append stC9 "bar" [mkMsg "x"] 0 (by decide) 2 (by decide)
     (by decide) (by decide)⟩

/-! ### Exactly-once resolution (C6): the handle invariant -/

theorem allWaiters_cons (p : String × RoomState) (rest : List (String × RoomState)) :
    allWaiters (p :: rest) = p.2.waiters ++ allWaiters rest := by
  simp [allWaiters]

/-- Splitting the global waiter list at a room that is present: replacing
that room's state replaces exactly its slice. -/
theorem allWaiters_decomp (rooms : List (String × RoomState)) (r : String) (rs : RoomState)
    (hl : lookupRoom rooms r = some rs) :
    ∃ xs ys, allWaiters rooms = xs ++ (rs.waiters ++ ys)
      ∧ ∀ rs2, allWaiters (setRoom rooms r rs2) = xs ++ (rs2.waiters ++ ys) := by
  induction rooms with
  | nil => exact absurd hl (by simp [lookupRoom])
  | cons p rest ih =>
      obtain ⟨name, rs0⟩ := p
      by_cases hn : name = r
      · have hrs : rs0 = rs := by
          rw [lookupRoom, if_pos hn] at hl
          exact Option.some.inj hl
        subst hrs
        refine ⟨[], allWaiters rest, ?_, ?_⟩
        · simp [allWaiters_cons]
        · intro rs2
          simp [setRoom, hn, allWaiters_cons]
      · have hl2 : lookupRoom rest r = some rs := by
          rw [lookupRoom, if_neg hn] at hl
          exact hl
        obtain ⟨xs, ys, hb, ha⟩ := ih hl2
        refine ⟨rs0.waiters ++ xs, ys, ?_, ?_⟩
        · rw [allWaiters_cons, hb, List.append_assoc]
        · intro rs2
          rw [setRoom, if_neg hn, allWaiters_cons, ha rs2, List.append_assoc]

theorem allWaiters_create_new_room (st : BufferState) (r : String) :
    allWaiters (create_new_room st r).rooms = allWaiters st.rooms := by
  unfold create_new_room
  cases hl : lookupRoom st.rooms r with
  | some rs => rfl
  | none =>
      show allWaiters (setRoom st.rooms r ⟨[], []⟩) = allWaiters st.rooms
      rw [setRoom_of_lookup_none _ _ _ hl]
      simp [allWaiters]

theorem logHandles_create_new_room (st : BufferState) (r : String) :
    logHandles (create_new_room st r) = logHandles st := by
  unfold logHandles
  rw [create_new_room_resolvedLog]

theorem usedHandles_create_new_room (st : BufferState) (r : String) :
    usedHandles (create_new_room st r) = usedHandles st := by
  unfold usedHandles
  rw [logHandles_create_new_room, allWaiters_create_new_room]

/-- `new_messages` only moves handles from "pending" to "resolved": the
multiset of known handles is unchanged. -/
theorem usedHandles_new_messages_perm (st : BufferState) (r : String) (m : List Message) :
    (usedHandles (new_messages st r m)).Perm (usedHandles st) := by
  obtain ⟨xs, ys, hb, ha⟩ := allWaiters_decomp (create_new_room st r).rooms r _
      (lookupRoom_create_new_room_self st r)
  have hlog : (new_messages st r m).resolvedLog
      = (create_new_room st r).resolvedLog
        ++ ((getRoom (create_new_room st r) r).waiters.map (fun h => (h, m))) := by
    simp only [new_messages]
  have hrooms : allWaiters (new_messages st r m).rooms
      = xs ++ ([] ++ ys) := by
    simp only [new_messages]
    exact ha _
  have hused : usedHandles (new_messages st r m)
      = (logHandles st ++ (getRoom st r).waiters) ++ (xs ++ ([] ++ ys)) := by
    unfold usedHandles
    rw [hrooms]
    unfold logHandles
    rw [hlog, create_new_room_resolvedLog, getRoom_create_new_room]
    simp only [logHandles, List.map_append, List.map_map]
    rw [show (Prod.fst ∘ fun h : Nat => (h, m)) = id from rfl, List.map_id]
  have hused0 : usedHandles st
      = logHandles st ++ (xs ++ ((getRoom st r).waiters ++ ys)) := by
    unfold usedHandles
    rw [← allWaiters_create_new_room st r, hb]
  rw [hused, hused0, List.perm_iff_count]
  intro a
  simp only [List.count_append, List.count_nil]
  omega

/-- A successful `cancel_wait` moves exactly the cancelled handle from
"pending" to "resolved": the multiset of known handles is unchanged, and so
is the fresh-handle counter. -/
theorem usedHandles_cancel_ok (st : BufferState) (r : String) (h : Nat) (st2 : BufferState)
    (hok : cancel_wait st r h = Except.ok st2) :
    (usedHandles st2).Perm (usedHandles st) ∧ st2.nextHandle = st.nextHandle := by
  unfold cancel_wait at hok
  split at hok
  · exact Except.noConfusion hok
  · next rs hl =>
      by_cases hmem : h ∈ rs.waiters
      · rw [if_pos hmem] at hok
        have hst2 : st2 = { st with
            rooms := setRoom st.rooms r { rs with waiters := rs.waiters.erase h },
            resolvedLog := st.resolvedLog ++ [(h, [])] } := (Except.ok.inj hok).symm
        subst hst2
        obtain ⟨xs, ys, hb, ha⟩ := allWaiters_decomp st.rooms r rs hl
        constructor
        · have hcnt : 0 < rs.waiters.count h := List.count_pos_iff.mpr hmem
          rw [List.perm_iff_count]
          intro a
          unfold usedHandles logHandles
          show ((st.resolvedLog ++ [(h, [])]).map Prod.fst
              ++ allWaiters (setRoom st.rooms r { rs with waiters := rs.waiters.erase h })).count a
            = (st.resolvedLog.map Prod.fst ++ allWaiters st.rooms).count a
          rw [ha _, hb]
          by_cases hah : a = h
          · subst hah
            simp only [List.count_append, List.map_append, List.map_cons, List.map_nil,
              List.count_cons, List.count_nil, List.count_erase_self, beq_self_eq_true,
              if_true]
            omega
          · have hne : (a == h) = false := beq_eq_false_iff_ne.mpr hah
            have hne2 : (h == a) = false := beq_eq_false_iff_ne.mpr (Ne.symm hah)
            simp only [List.count_append, List.map_append, List.map_cons, List.map_nil,
              List.count_cons, List.count_nil, List.count_erase_of_ne hah, hne, hne2,
              Bool.false_eq_true, if_false]
            omega
        · rfl
      · rw [if_neg hmem] at hok
        exact Except.noConfusion hok

theorem addWaiter_of_not_mem {w : List Nat} {h : Nat} (hm : h ∉ w) :
    addWaiter w h = w ++ [h] := by
  simp [addWaiter, hm]

theorem perm_insert_middle (n : Nat) (A xs w ys : List Nat) :
    (A ++ (xs ++ ((w ++ [n]) ++ ys))).Perm (n :: (A ++ (xs ++ (w ++ ys)))) := by
  rw [List.perm_iff_count]
  intro a
  simp only [List.count_append, List.count_cons, List.count_nil]
  omega

theorem perm_log_insert (n : Nat) (A B : List Nat) :
    ((A ++ [n]) ++ B).Perm (n :: (A ++ B)) := by
  rw [List.perm_iff_count]
  intro a
  simp only [List.count_append, List.count_cons, List.count_nil]
  omega

/-- `wait_for_messages` introduces exactly one new handle, the fresh one:
it is recorded either as immediately resolved or as a pending waiter, and
the counter advances past it. -/
theorem usedHandles_subscribe (st : BufferState) (r : String) (c : Option String)
    (hfresh : st.nextHandle ∉ usedHandles st) :
    (usedHandles (wait_for_messages st r c).1).Perm (st.nextHandle :: usedHandles st)
    ∧ (wait_for_messages st r c).1.nextHandle = st.nextHandle + 1 := by
  obtain ⟨xs, ys, hb, ha⟩ := allWaiters_decomp (create_new_room st r).rooms r _
      (lookupRoom_create_new_room_self st r)
  have hw : st.nextHandle ∉ (getRoom st r).waiters := by
    intro hmem
    apply hfresh
    unfold usedHandles
    rw [← allWaiters_create_new_room st r, hb]
    simp [hmem]
  have hused0 : usedHandles st = logHandles st ++ (xs ++ ((getRoom st r).waiters ++ ys)) := by
    unfold usedHandles
    rw [← allWaiters_create_new_room st r, hb]
  have hreg : (usedHandles (registerWaiter
        { create_new_room st r with nextHandle := (create_new_room st r).nextHandle + 1 }
        r (getRoom (create_new_room st r) r) (create_new_room st r).nextHandle).1).Perm
        (st.nextHandle :: usedHandles st)
      ∧ (registerWaiter
        { create_new_room st r with nextHandle := (create_new_room st r).nextHandle + 1 }
        r (getRoom (create_new_room st r) r) (create_new_room st r).nextHandle).1.nextHandle
        = st.nextHandle + 1 := by
    constructor
    · unfold registerWaiter usedHandles logHandles
      simp only [getRoom_create_new_room, create_new_room_nextHandle,
        create_new_room_resolvedLog]
      rw [addWaiter_of_not_mem hw]
      rw [ha ⟨(getRoom st r).cache, (getRoom st r).waiters ++ [st.nextHandle]⟩]
      rw [← allWaiters_create_new_room st r, hb]
      exact perm_insert_middle _ _ _ _ _
    · simp [registerWaiter, create_new_room_nextHandle]
  simp only [wait_for_messages]
  split
  · split
    · constructor
      · unfold usedHandles logHandles
        simp only [create_new_room_nextHandle, create_new_room_resolvedLog,
          List.map_append, List.map_cons, List.map_nil]
        rw [hb, ← allWaiters_create_new_room st r, hb]
        exact perm_log_insert _ _ _
      · simp [create_new_room_nextHandle]
    · exact hreg
  · exact hreg

/-- Well-formedness is preserved by every operation of the core. -/
theorem WF_runOp (st : BufferState) (op : Op) (hwf : WF st) : WF (runOp st op) := by
  obtain ⟨hnd, hlt⟩ := hwf
  cases op with
  | ensure r =>
      refine ⟨?_, ?_⟩ <;>
        simp only [runOp, usedHandles_create_new_room, create_new_room_nextHandle]
      · exact hnd
      · exact hlt
  | publish r m =>
      have hperm := usedHandles_new_messages_perm st r m
      have hnh : (new_messages st r m).nextHandle = st.nextHandle := by
        simp only [new_messages]
        exact create_new_room_nextHandle st r
      refine ⟨hperm.symm.nodup hnd, ?_⟩
      intro h hh
      show h < (new_messages st r m).nextHandle
      rw [hnh]
      exact hlt h (hperm.mem_iff.mp hh)
  | subscribe r c =>
      have hfresh : st.nextHandle ∉ usedHandles st := by
        intro hmem
        exact absurd (hlt _ hmem) (by omega)
      obtain ⟨hperm, hnh⟩ := usedHandles_subscribe st r c hfresh
      refine ⟨?_, ?_⟩
      · have hcons : (st.nextHandle :: usedHandles st).Nodup :=
          List.nodup_cons.mpr ⟨hfresh, hnd⟩
        exact hperm.symm.nodup hcons
      · intro h hh
        show h < (wait_for_messages st r c).1.nextHandle
        rw [hnh]
        have hmem := hperm.mem_iff.mp hh
        rcases List.mem_cons.mp hmem with heq | hin
        · omega
        · have := hlt h hin
          omega
  | cancel r h =>
      show WF (match cancel_wait st r h with | .ok st2 => st2 | .error _ => st)
      cases hc : cancel_wait st r h with
      | error e => exact ⟨hnd, hlt⟩
      | ok st2 =>
          obtain ⟨hperm, hnh⟩ := usedHandles_cancel_ok st r h st2 hc
          refine ⟨hperm.symm.nodup hnd, ?_⟩
          intro a ha
          rw [hnh]
          exact hlt a (hperm.mem_iff.mp ha)

theorem WF_runOps (ops : List Op) (st : BufferState) (hwf : WF st) : WF (runOps st ops) := by
  induction ops generalizing st with
  | nil => exact hwf
  | cons op rest ih => exact ih _ (WF_runOp st op hwf)

theorem WF_initialState : WF initialState := by
  have h0 : usedHandles initialState = [] := rfl
  constructor
  · rw [h0]
    exact List.nodup_nil
  · intro h hh
    rw [h0] at hh
    cases hh

/-- C6: every future is resolved at most once. After any sequence of
operations from a fresh buffer, the resolution log mentions each handle at
most once, and every handle still pending in some waiter set has never been
resolved — in particular a waiter removed and resolved by `cancel_wait` is
gone from the set, so a subsequent `new_messages` cannot resolve it again. -/
theorem C6_exactly_once_resolution (ops : List Op) :
    (logHandles (runOps initialState ops)).Nodup
    ∧ ∀ h ∈ allWaiters (runOps initialState ops).rooms,
        h ∉ logHandles (runOps initialState ops) := by
  obtain ⟨hnd, _⟩ := WF_runOps ops initialState WF_initialState
  unfold usedHandles at hnd
  rw [List.nodup_append] at hnd
  refine ⟨hnd.1, ?_⟩
  intro h hw hl
  exact hnd.2.2 hl hw

/-! ### Registration persistence (C7) -/

/-- Which operations resolve the waiter `h` registered in `room`: a publish
to that room, or a cancel of that very handle in that room. -/
def targets (room : String) (h : Nat) : Op → Bool
  | .publish r _ => r == room
  | .cancel r h2 => r == room && h2 == h
  | _ => false

theorem mem_addWaiter_of_mem {w : List Nat} {h h2 : Nat} (hm : h ∈ w) :
    h ∈ addWaiter w h2 := by
  unfold addWaiter
  by_cases hin : h2 ∈ w
  · simpa [hin] using hm
  · simp only [hin, if_false]
    exact List.mem_append_left _ hm

theorem registerWaiter_fst_getRoom_self (st1 : BufferState) (r : String) (rs : RoomState)
    (h2 : Nat) :
    getRoom (registerWaiter st1 r rs h2).1 r = { rs with waiters := addWaiter rs.waiters h2 } := by
  unfold registerWaiter getRoom
  simp [lookupRoom_setRoom_self]

theorem registerWaiter_fst_getRoom_ne (st1 : BufferState) (r : String) (rs : RoomState)
    (h2 : Nat) (q : String) (hq : q ≠ r) :
    getRoom (registerWaiter st1 r rs h2).1 q = getRoom st1 q := by
  unfold registerWaiter getRoom
  simp [lookupRoom_setRoom_ne _ _ _ _ hq]

/-- A pending waiter of some room is one of the state's known handles. -/
theorem mem_waiters_mem_allWaiters {st : BufferState} {room : String} {h : Nat}
    (hm : h ∈ (getRoom st room).waiters) : h ∈ allWaiters st.rooms := by
  cases hl : lookupRoom st.rooms room with
  | none =>
      unfold getRoom at hm
      rw [hl] at hm
      exact absurd hm (by simp)
  | some rs =>
      have hg : getRoom st room = rs := getRoom_of_lookup hl
      rw [hg] at hm
      obtain ⟨xs, ys, hb, _⟩ := allWaiters_decomp st.rooms room rs hl
      rw [hb]
      exact List.mem_append_right _ (List.mem_append_left _ hm)

/-- An operation that does not target the waiter `h` of `room` leaves it
registered. -/
theorem waiter_survives_op (st : BufferState) (room : String) (h : Nat) (op : Op)
    (hmem : h ∈ (getRoom st room).waiters) (hnt : targets room h op = false) :
    h ∈ (getRoom (runOp st op) room).waiters := by
  cases op with
  | ensure r =>
      show h ∈ (getRoom (create_new_room st r) room).waiters
      rw [getRoom_create_new_room]
      exact hmem
  | publish r m =>
      simp only [targets] at hnt
      have hne : room ≠ r := Ne.symm (by simpa using hnt)
      show h ∈ (getRoom (new_messages st r m) room).waiters
      have heq : getRoom (new_messages st r m) room = getRoom st room := by
        simp only [new_messages]
        unfold getRoom
        rw [lookupRoom_setRoom_ne _ _ _ _ hne]
        show getRoom (create_new_room st r) room = getRoom st room
        exact getRoom_create_new_room st r room
      rw [heq]
      exact hmem
  | subscribe r c =>
      show h ∈ (getRoom (wait_for_messages st r c).1 room).waiters
      have hregcase : h ∈ (getRoom (registerWaiter
          { create_new_room st r with nextHandle := (create_new_room st r).nextHandle + 1 }
          r (getRoom (create_new_room st r) r) (create_new_room st r).nextHandle).1
          room).waiters := by
        by_cases hrr : room = r
        · subst hrr
          rw [registerWaiter_fst_getRoom_self]
          show h ∈ addWaiter (getRoom (create_new_room st room) room).waiters
            (create_new_room st room).nextHandle
          rw [getRoom_create_new_room]
          exact mem_addWaiter_of_mem hmem
        · rw [registerWaiter_fst_getRoom_ne _ _ _ _ _ hrr]
          show h ∈ (getRoom (create_new_room st r) room).waiters
          rw [getRoom_create_new_room]
          exact hmem
      simp only [wait_for_messages]
      split
      · split
        · show h ∈ (getRoom (create_new_room st r) room).waiters
          rw [getRoom_create_new_room]
          exact hmem
        · exact hregcase
      · exact hregcase
  | cancel r h2 =>
      show h ∈ (getRoom (match cancel_wait st r h2 with
          | .ok st2 => st2 | .error _ => st) room).waiters
      cases hc : cancel_wait st r h2 with
      | error e => exact hmem
      | ok st2 =>
          unfold cancel_wait at hc
          split at hc
          · exact Except.noConfusion hc
          · next rs hl =>
              by_cases hmem2 : h2 ∈ rs.waiters
              · rw [if_pos hmem2] at hc
                have hst2 : st2 = { st with
                    rooms := setRoom st.rooms r { rs with waiters := rs.waiters.erase h2 },
                    resolvedLog := st.resolvedLog ++ [(h2, [])] } := (Except.ok.inj hc).symm
                subst hst2
                by_cases hrr : room = r
                · subst hrr
                  simp only [targets] at hnt
                  have hne : h ≠ h2 := by
                    intro he
                    subst he
                    simp at hnt
                  rw [getRoom_of_lookup (lookupRoom_setRoom_self _ _ _)]
                  show h ∈ rs.waiters.erase h2
                  have hg : getRoom st room = rs := getRoom_of_lookup hl
                  rw [hg] at hmem
                  exact (List.mem_erase_of_ne hne).mpr hmem
                · unfold getRoom
                  rw [lookupRoom_setRoom_ne _ _ _ _ hrr]
                  exact hmem
              · rw [if_neg hmem2] at hc
                exact Except.noConfusion hc

/-- C7: with no cursor, or with a cursor equal to the id of the newest
message in the (non-empty) history, `wait_for_messages` does not resolve
anything: it hands back the fresh handle, leaves the resolution log
untouched, appends the handle to the room's waiter set, and the handle
stays registered and unresolved across any further operations until a
publish to that room or a cancel of that handle targets it. -/
theorem C7_no_immediate_data_registers (st : BufferState) (room : String)
    (cursor : Option String) (hwf : WF st)
    (hcur : cursor = none
      ∨ ∃ ys m, (getRoom st room).cache = ys ++ [m] ∧ cursor = some m.id) :
    (wait_for_messages st room cursor).2 = st.nextHandle
    ∧ (wait_for_messages st room cursor).1.resolvedLog = st.resolvedLog
    ∧ (getRoom (wait_for_messages st room cursor).1 room).waiters
        = (getRoom st room).waiters ++ [st.nextHandle]
    ∧ ∀ ops : List Op, (∀ op ∈ ops, targets room st.nextHandle op = false) →
        st.nextHandle ∈ (getRoom (runOps (wait_for_messages st room cursor).1 ops) room).waiters
        ∧ st.nextHandle ∉ logHandles (runOps (wait_for_messages st room cursor).1 ops) := by
  have hregeq : wait_for_messages st room cursor
      = registerWaiter
          { create_new_room st room with nextHandle := (create_new_room st room).nextHandle + 1 }
          room (getRoom (create_new_room st room) room) (create_new_room st room).nextHandle := by
    rcases hcur with rfl | ⟨ys, m, hcache, rfl⟩
    · have hct : cursorTruthy none = false := rfl
      simp only [wait_for_messages, hct, Bool.false_eq_true, if_false]
    · by_cases hid : m.id = ""
      · have hct : cursorTruthy (some m.id) = false := by simp [cursorTruthy, hid]
        simp only [wait_for_messages, hct, Bool.false_eq_true, if_false]
      · have hct : cursorTruthy (some m.id) = true := by simp [cursorTruthy, hid]
        have hn : newCount m.id
            (getRoom (create_new_room st room) room).cache.reverse = 0 := by
          rw [getRoom_create_new_room, hcache]
          simp [newCount]
        simp [wait_for_messages, hct, hn]
  have hfreshw : st.nextHandle ∉ (getRoom st room).waiters := by
    intro hm
    have hlt := hwf.2 _ (List.mem_append_right _ (mem_waiters_mem_allWaiters hm))
    omega
  refine ⟨?_, ?_, ?_, ?_⟩
  · rw [hregeq]
    show (create_new_room st room).nextHandle = st.nextHandle
    exact create_new_room_nextHandle st room
  · rw [hregeq]
    show (create_new_room st room).resolvedLog = st.resolvedLog
    exact create_new_room_resolvedLog st room
  · rw [hregeq, registerWaiter_fst_getRoom_self]
    show addWaiter (getRoom (create_new_room st room) room).waiters
        (create_new_room st room).nextHandle = (getRoom st room).waiters ++ [st.nextHandle]
    rw [getRoom_create_new_room, create_new_room_nextHandle]
    exact addWaiter_of_not_mem hfreshw
  · intro ops hops
    have hwf1 : WF (wait_for_messages st room cursor).1 :=
      WF_runOp st (.subscribe room cursor) hwf
    have hmem1 : st.nextHandle ∈ (getRoom (wait_for_messages st room cursor).1 room).waiters := by
      rw [hregeq, registerWaiter_fst_getRoom_self]
      show st.nextHandle ∈ addWaiter (getRoom (create_new_room st room) room).waiters
          (create_new_room st room).nextHandle
      rw [getRoom_create_new_room, create_new_room_nextHandle]
      exact mem_addWaiter_self _ _
    have main : ∀ (l : List Op) (st2 : BufferState), WF st2 →
        st.nextHandle ∈ (getRoom st2 room).waiters →
        (∀ op ∈ l, targets room st.nextHandle op = false) →
        WF (runOps st2 l) ∧ st.nextHandle ∈ (getRoom (runOps st2 l) room).waiters := by
      intro l
      induction l with
      | nil => intro st2 hw2 hm2 _; exact ⟨hw2, hm2⟩
      | cons op rest ih =>
          intro st2 hw2 hm2 hl2
          exact ih (runOp st2 op) (WF_runOp st2 op hw2)
            (waiter_survives_op st2 room st.nextHandle op hm2 (hl2 op (List.mem_cons_self _ _)))
            (fun o ho => hl2 o (List.mem_cons_of_mem _ ho))
    obtain ⟨hwfF, hmemF⟩ := main ops (wait_for_messages st room cursor).1 hwf1 hmem1 hops
    refine ⟨hmemF, ?_⟩
    intro hlog
    have hall := mem_waiters_mem_allWaiters hmemF
    have hnd := hwfF.1
    unfold usedHandles at hnd
    rw [List.nodup_append] at hnd
    exact hnd.2.2 hlog hall

/-- Witness for C7: subscribing to `"lobby"` with no cursor registers
handle 0; a publish to another room and a cancel of a different handle
leave it registered and unresolved. -/
theorem C7_no_immediate_data_registers_witness :
    (getRoom (wait_for_messages initialState "lobby" none).1 "lobby").waiters
      = (getRoom initialState "lobby").waiters ++ [initialState.nextHandle]
    ∧ initialState.nextHandle ∈ (getRoom (runOps (wait_for_messages initialState "lobby" none).1
        [Op.publish "attic" [mkMsg "y"], Op.cancel "lobby" 99]) "lobby").waiters
    ∧ initialState.nextHandle ∉ logHandles (runOps (wait_for_messages initialState "lobby" none).1
        [Op.publish "attic" [mkMsg "y"], Op.cancel "lobby" 99]) :=
  ⟨(C7_no_immediate_data_registers initialState "lobby" none WF_initialState (Or.inl rfl)).2.2.1,
   ((C7_no_immediate_data_registers initialState "lobby" none WF_initialState (Or.inl rfl)).2.2.2
       [Op.publish "attic" [mkMsg "y"], Op.cancel "lobby" 99] (by decide)).1,
   ((C7_no_immediate_data_registers initialState "lobby" none WF_initialState (Or.inl rfl)).2.2.2
       [Op.publish "attic" [mkMsg "y"], Op.cancel "lobby" 99] (by decide)).2⟩
